import Mathlib

/-!
Verification of the budgeting application schema
(`backend/app/models/{user,account,category,transaction,budget}.py`).

The repository source is a SQLAlchemy declarative schema.  We embed it
shallowly:

* each model class becomes a Lean structure whose fields mirror the
  declared columns (UUID primary keys become `Nat`; `Numeric(15, 2)`
  monetary columns become `Int` minor units, i.e. cents; `Date` becomes
  `Nat` day ordinals; nullable columns become `Option`);
* the database is a record of lists, one per table;
* the delete-time behaviour declared in the schema (foreign-key
  `ondelete="CASCADE"` / `ondelete="SET NULL"` actions and the ORM
  `cascade="all, delete-orphan"` relationships) becomes explicit state
  transformers `deleteTransaction`, `deleteAccount`, `deleteCategory`,
  `deleteUser`;
* operations the specification describes but whose bodies are not part
  of the schema (`appendTransfer`, `createCategory`, `reparentCategory`,
  `createBudget`, `editBudget`, `createUser`, `createAccount`) are
  modelled from the specification text, each marked as such in its doc
  comment.

The `base.py` mixins (`UUIDMixin`, `TimestampMixin`) are not among the
given sources; they contribute only the `id` primary key (modelled as
the `id : Nat` field below) and audit timestamps (irrelevant to every
property proved here, hence omitted).
-/

namespace BudgetApp

/-- `AccountType` enumeration from `account.py`. -/
inductive AccountType where
  | checking
  | savings
  | credit_card
  | cash
  | investment
  | loan
  | other
deriving DecidableEq, Repr

/-- `CategoryType` enumeration from `category.py`. -/
inductive CategoryType where
  | income
  | expense
deriving DecidableEq, Repr

/-- `TransactionType` enumeration from `transaction.py`. -/
inductive TransactionType where
  | income
  | expense
  | transfer
deriving DecidableEq, Repr

/-- `BudgetPeriod` enumeration from `budget.py`. -/
inductive BudgetPeriod where
  | daily
  | weekly
  | monthly
  | quarterly
  | yearly
deriving DecidableEq, Repr

/-- `User` model from `user.py`: unique email, credential hash, display name. -/
structure User where
  id : Nat
  email : String
  hashed_password : String
  full_name : String
deriving DecidableEq, Repr

/-- `Account` model from `account.py`.  `balance` is the `Numeric(15, 2)`
column held in exact minor units (cents) as an `Int`. -/
structure Account where
  id : Nat
  user_id : Nat
  name : String
  account_type : AccountType
  balance : Int
  currency : String
  is_active : Bool
deriving DecidableEq, Repr

/-- `TransactionCategory` model from `category.py`.  `user_id` is nullable
(a `none` owner means a system-wide category); `parent_category_id` is the
self-reference forming the subcategory tree. -/
structure TransactionCategory where
  id : Nat
  user_id : Option Nat
  name : String
  category_type : CategoryType
  color : Option String
  icon : Option String
  is_system : Bool
  parent_category_id : Option Nat
deriving DecidableEq, Repr

/-- `Transaction` model from `transaction.py`.  `amount` is the
`Numeric(15, 2)` column in minor units; `linked_transaction_id` is the
nullable self-reference to the counterpart leg of a transfer, declared
with `ondelete="SET NULL"`. -/
structure Transaction where
  id : Nat
  account_id : Nat
  category_id : Option Nat
  amount : Int
  transaction_type : TransactionType
  description : String
  transaction_date : Nat
  notes : Option String
  linked_transaction_id : Option Nat
deriving DecidableEq, Repr

/-- `Budget` model from `budget.py`.  `amount` is the monetary limit in
minor units; `end_date = none` means the budget is open-ended. -/
structure Budget where
  id : Nat
  user_id : Nat
  category_id : Nat
  amount : Int
  period : BudgetPeriod
  start_date : Nat
  end_date : Option Nat
deriving DecidableEq, Repr

/-- The database state: one list per table of the schema. -/
structure DB where
  users : List User
  accounts : List Account
  transaction_categories : List TransactionCategory
  transactions : List Transaction
  budgets : List Budget
deriving DecidableEq, Repr

/-- Error kinds of the specification (§7). -/
inductive CoreError where
  | NotFound
  | DuplicateEmail
  | InvalidAmount
  | InvalidAccount
  | SameAccount
  | InvalidParent
  | CycleDetected
  | BudgetOverlap
  | OutOfRange
deriving DecidableEq, Repr

/-! ## Delete-time referential actions declared in the schema -/

/-- The `ondelete="SET NULL"` action on `Transaction.linked_transaction_id`:
when the referenced transaction `tid` is deleted, a surviving row that
pointed at it has its link cleared. -/
def clearLink (tid : Nat) (t : Transaction) : Transaction :=
  if t.linked_transaction_id = some tid then { t with linked_transaction_id := none } else t

/-- `SET NULL` for a whole set of deleted transaction ids. -/
def clearLinks (removed : List Nat) (t : Transaction) : Transaction :=
  match t.linked_transaction_id with
  | none => t
  | some l => if removed.contains l then { t with linked_transaction_id := none } else t

/-- The `ondelete="SET NULL"` action on `Transaction.category_id`: a
transaction whose category was deleted keeps existing with the reference
cleared. -/
def clearCategoryRef (removed : List Nat) (t : Transaction) : Transaction :=
  match t.category_id with
  | none => t
  | some c => if removed.contains c then { t with category_id := none } else t

/-- Deleting a transaction row.  The schema attaches no side effect to the
row itself other than the `SET NULL` referential action on surviving rows
whose `linked_transaction_id` referenced it; in particular stored account
balances are untouched (the schema defines no balance trigger). -/
def deleteTransaction (db : DB) (tid : Nat) : DB :=
  { db with transactions :=
      (db.transactions.filter (fun t => !(t.id == tid))).map (clearLink tid) }

/-- Deleting an account: the `ondelete="CASCADE"` on `Transaction.account_id`
(and the `cascade="all, delete-orphan"` relationship) removes all its
transactions; links of surviving transactions to the removed rows are
cleared by `SET NULL`. -/
def deleteAccount (db : DB) (aid : Nat) : DB :=
  let removedTx := (db.transactions.filter (fun t => t.account_id == aid)).map (fun t => t.id)
  { db with
    accounts := db.accounts.filter (fun a => !(a.id == aid)),
    transactions :=
      (db.transactions.filter (fun t => !(t.account_id == aid))).map (clearLinks removedTx) }

/-- One step of the subcategory cascade: every category whose parent is
already marked for deletion is marked as well
(`ondelete="CASCADE"` on `TransactionCategory.parent_category_id`). -/
def closureStep (cats : List TransactionCategory) (s : List Nat) : List Nat :=
  s ++ (cats.filter (fun c =>
      match c.parent_category_id with
      | some p => s.contains p && !(s.contains c.id)
      | none => false)).map (fun c => c.id)

/-- Iterated cascade marking with explicit fuel. -/
def catClosureAux : Nat → List TransactionCategory → List Nat → List Nat
  | 0, _, s => s
  | n + 1, cats, s => catClosureAux n cats (closureStep cats s)

/-- The set of category ids removed when the categories in `roots` are
deleted: `roots` together with all categories reachable downward through
`parent_category_id` (the recursive `CASCADE`). -/
def catClosure (cats : List TransactionCategory) (roots : List Nat) : List Nat :=
  catClosureAux cats.length cats roots

/-- Deleting a category, per the schema: the subcategory tree under it is
removed (`CASCADE` on the self-reference), budgets targeting a removed
category are removed (`CASCADE` on `Budget.category_id`), and transactions
referencing a removed category survive with the reference cleared
(`SET NULL` on `Transaction.category_id`). -/
def deleteCategory (db : DB) (cid : Nat) : DB :=
  let removed := catClosure db.transaction_categories [cid]
  { db with
    transaction_categories :=
      db.transaction_categories.filter (fun c => !(removed.contains c.id)),
    budgets := db.budgets.filter (fun b => !(removed.contains b.category_id)),
    transactions := db.transactions.map (clearCategoryRef removed) }

/-- Deleting a user, per the schema: accounts, categories and budgets of
the user are removed (`CASCADE` on their `user_id` columns and the three
`cascade="all, delete-orphan"` relationships in `user.py`); transactions
of the removed accounts are removed transitively; the subcategory cascade
removes subtrees under the removed categories; budgets targeting removed
categories are removed; surviving transactions have dangling category and
link references cleared by `SET NULL`. -/
def deleteUser (db : DB) (uid : Nat) : DB :=
  let removedAccounts := (db.accounts.filter (fun a => a.user_id == uid)).map (fun a => a.id)
  let rootCats :=
    (db.transaction_categories.filter (fun c => c.user_id == some uid)).map (fun c => c.id)
  let removedCats := catClosure db.transaction_categories rootCats
  let removedTx :=
    (db.transactions.filter (fun t => removedAccounts.contains t.account_id)).map (fun t => t.id)
  { users := db.users.filter (fun u => !(u.id == uid)),
    accounts := db.accounts.filter (fun a => !(a.user_id == uid)),
    transaction_categories :=
      db.transaction_categories.filter (fun c => !(removedCats.contains c.id)),
    transactions :=
      ((db.transactions.filter (fun t => !(removedAccounts.contains t.account_id))).map
          (clearLinks removedTx)).map (clearCategoryRef removedCats),
    budgets := db.budgets.filter (fun b => !(b.user_id == uid || removedCats.contains b.category_id)) }

/-! ## Transfer pairs (Transaction Journal) -/

/-- A transaction `t` has a valid transfer partner in `ts`: its link field
points at a transaction that exists, is itself a transfer, sits on a
different account, has the opposite amount, and links back at `t`. -/
def hasPartner (ts : List Transaction) (t : Transaction) : Bool :=
  match t.linked_transaction_id with
  | none => false
  | some l =>
    ts.any (fun u =>
      decide (u.id = l) && decide (u.transaction_type = TransactionType.transfer) &&
      decide (u.account_id ≠ t.account_id) && decide (u.amount = -t.amount) &&
      decide (u.linked_transaction_id = some t.id))

/-- Invariant I3 of the specification: every transfer transaction has a
link partner with the mirrored properties. -/
def TransferInv (ts : List Transaction) : Prop :=
  ∀ t ∈ ts, t.transaction_type = TransactionType.transfer → hasPartner ts t = true

instance (ts : List Transaction) : Decidable (TransferInv ts) :=
  inferInstanceAs
    (Decidable (∀ t ∈ ts, t.transaction_type = TransactionType.transfer → hasPartner ts t = true))

def findAccount (accounts : List Account) (aid : Nat) : Option Account :=
  accounts.find? (fun a => a.id == aid)

def nextTxId (ts : List Transaction) : Nat :=
  1 + ts.foldr (fun t m => max t.id m) 0

def setBalance (accounts : List Account) (aid : Nat) (delta : Int) : List Account :=
  accounts.map (fun a => if a.id = aid then { a with balance := a.balance + delta } else a)

/-- Modelled from the spec: `appendTransfer` of §4.4 is not part of the
schema source; per the specification it atomically inserts a debit leg on
the source account (amount negated) and a credit leg on the destination
account, each referencing the other via the link field, updating both
balances, and fails with `SameAccount`, `InvalidAmount`, or
`InvalidAccount` on the corresponding bad inputs. -/
def appendTransfer (db : DB) (src dst : Nat) (amount : Int) (dt : Nat) (descr : String) :
    Except CoreError (DB × Transaction × Transaction) :=
  if src = dst then .error .SameAccount
  else if amount ≤ 0 then .error .InvalidAmount
  else
    match findAccount db.accounts src, findAccount db.accounts dst with
    | some a, some b =>
      if a.is_active && b.is_active then
        let i1 := nextTxId db.transactions
        let i2 := i1 + 1
        let t1 : Transaction := ⟨i1, src, none, -amount, .transfer, descr, dt, none, some i2⟩
        let t2 : Transaction := ⟨i2, dst, none, amount, .transfer, descr, dt, none, some i1⟩
        .ok ({ db with
                transactions := t1 :: t2 :: db.transactions,
                accounts := setBalance (setBalance db.accounts src (-amount)) dst amount },
              t1, t2)
      else .error .InvalidAccount
    | _, _ => .error .InvalidAccount

/-! ## Category Tree operations -/

def findCat (cats : List TransactionCategory) (cid : Nat) : Option TransactionCategory :=
  cats.find? (fun c => c.id == cid)

/-- One step up the parent chain, reading the arena of category records. -/
def stepPar (cats : List TransactionCategory) (i : Nat) : Option Nat :=
  (findCat cats i).bind (fun c => c.parent_category_id)

/-- The fuelled ancestor walk reaches a root (a record with no parent, or
an id absent from the arena) within the given fuel. -/
def chainEndsAtRoot : Nat → List TransactionCategory → Nat → Bool
  | 0, _, _ => false
  | n + 1, cats, i =>
    match stepPar cats i with
    | none => true
    | some p => chainEndsAtRoot n cats p

/-- The ancestor chain starting at (and including) `i`, cut off at the
given fuel. -/
def ancChainIncl : Nat → List TransactionCategory → Nat → List Nat
  | 0, _, i => [i]
  | n + 1, cats, i =>
    i :: (match stepPar cats i with
          | none => []
          | some p => ancChainIncl n cats p)

/-- Owner-scope part of invariant I2: every parent reference resolves, and
parent and child share the same owner scope (both system, or the same
user). -/
def ScopeOk (cats : List TransactionCategory) : Prop :=
  ∀ c ∈ cats, ∀ p, c.parent_category_id = some p →
    ∃ pc, findCat cats p = some pc ∧ pc.user_id = c.user_id

/-- Finiteness/acyclicity part of invariant I2: every parent chain reaches
a root in finitely many steps. -/
def ChainsFinite (cats : List TransactionCategory) : Prop :=
  ∀ c ∈ cats, ∃ n, chainEndsAtRoot n cats c.id = true

/-- The Category Tree invariant: unique ids (primary key), owner-scope
agreement, and finite parent chains. -/
def CatInv (cats : List TransactionCategory) : Prop :=
  (cats.map (fun c => c.id)).Nodup ∧ ScopeOk cats ∧ ChainsFinite cats

/-- Acyclicity in the phrasing of the claim: no category appears among its
own (proper) ancestors, at any walk depth. -/
def NoSelfAncestor (cats : List TransactionCategory) : Prop :=
  ∀ c ∈ cats, ∀ p, stepPar cats c.id = some p → ∀ g, c.id ∉ ancChainIncl g cats p

def nextCatId (cats : List TransactionCategory) : Nat :=
  1 + cats.foldr (fun c m => max c.id m) 0

/-- Pointwise update used by `setParent`. -/
def setParentUpd (cid : Nat) (q : Option Nat) (c : TransactionCategory) : TransactionCategory :=
  if c.id = cid then { c with parent_category_id := q } else c

def setParent (cats : List TransactionCategory) (cid : Nat) (q : Option Nat) :
    List TransactionCategory :=
  cats.map (setParentUpd cid q)

/-- Modelled from the spec: `createCategory` of §4.2 is not part of the
schema source; per the specification it fails with `InvalidParent` when
the parent owner scope differs from the new owner scope, and otherwise
inserts a fresh record under the requested parent. -/
def createCategory (cats : List TransactionCategory) (owner : Option Nat) (nm : String)
    (ctype : CategoryType) (parent : Option Nat) :
    Except CoreError (List TransactionCategory) :=
  let newCat : TransactionCategory :=
    ⟨nextCatId cats, owner, nm, ctype, none, none, owner.isNone, parent⟩
  match parent with
  | none => .ok (newCat :: cats)
  | some p =>
    match findCat cats p with
    | none => .error .NotFound
    | some pc => if pc.user_id = owner then .ok (newCat :: cats) else .error .InvalidParent

/-- Modelled from the spec: `reparent` of §4.2 is not part of the schema
source; per the specification it re-validates I2 and acyclicity by walking
the ancestor chain of the new parent, rejecting with `CycleDetected` if the
category itself appears there (or if the walk does not reach a root within
the arena size bound), and with `InvalidParent` on an owner-scope
mismatch. -/
def reparentCategory (cats : List TransactionCategory) (cid : Nat) (newParent : Option Nat) :
    Except CoreError (List TransactionCategory) :=
  match findCat cats cid with
  | none => .error .NotFound
  | some c =>
    match newParent with
    | none => .ok (setParent cats cid none)
    | some p =>
      match findCat cats p with
      | none => .error .NotFound
      | some pc =>
        if pc.user_id ≠ c.user_id then .error .InvalidParent
        else if (ancChainIncl (cats.length + 1) cats p).contains cid then .error .CycleDetected
        else if chainEndsAtRoot (cats.length + 1) cats p then .ok (setParent cats cid (some p))
        else .error .CycleDetected

/-! ## Budget Evaluator validation -/

/-- Two budget validity windows, each the half-open range from
`start_date` to `end_date` (open-ended when `end_date` is absent),
overlap. -/
def windowsOverlap (b1 b2 : Budget) : Bool :=
  (match b2.end_date with
   | none => true
   | some e2 => decide (b1.start_date < e2)) &&
  (match b1.end_date with
   | none => true
   | some e1 => decide (b2.start_date < e1))

/-- Invariant I5 of the specification: windows of distinct budgets sharing
user and category never overlap. -/
def BudgetInv (bs : List Budget) : Prop :=
  ∀ b1 ∈ bs, ∀ b2 ∈ bs, b1.id ≠ b2.id → b1.user_id = b2.user_id →
    b1.category_id = b2.category_id → windowsOverlap b1 b2 = false

def nextBudgetId (bs : List Budget) : Nat :=
  1 + bs.foldr (fun b m => max b.id m) 0

/-- Modelled from the spec: budget creation is not part of the schema
source; per §4.5 it re-validates I5 against all other budgets sharing
(user, category), failing with `BudgetOverlap`. -/
def createBudget (bs : List Budget) (uid cid : Nat) (amt : Int) (per : BudgetPeriod)
    (sd : Nat) (ed : Option Nat) : Except CoreError (List Budget) :=
  let nb : Budget := ⟨nextBudgetId bs, uid, cid, amt, per, sd, ed⟩
  if bs.any (fun b => decide (b.user_id = uid) && decide (b.category_id = cid) &&
      windowsOverlap b nb)
  then .error .BudgetOverlap
  else .ok (nb :: bs)

/-- Modelled from the spec: editing the window of a budget is not part of
the schema source; per §4.5 it re-validates I5 against all other budgets
sharing (user, category), failing with `BudgetOverlap`. -/
def editBudget (bs : List Budget) (bid : Nat) (sd : Nat) (ed : Option Nat) :
    Except CoreError (List Budget) :=
  match bs.find? (fun b => b.id == bid) with
  | none => .error .NotFound
  | some b0 =>
    if bs.any (fun b => decide (b.id ≠ bid) && decide (b.user_id = b0.user_id) &&
        decide (b.category_id = b0.category_id) &&
        windowsOverlap b { b0 with start_date := sd, end_date := ed })
    then .error .BudgetOverlap
    else .ok (bs.map (fun b => if b.id = bid then { b with start_date := sd, end_date := ed }
                               else b))

/-! ## Identity Store -/

/-- Case-insensitive canonical form of an email address (every character
lowercased). -/
def lowerEmail (s : String) : String := String.mk (s.data.map Char.toLower)

def nextUserId (us : List User) : Nat :=
  1 + us.foldr (fun u m => max u.id m) 0

/-- Modelled from the spec: the Identity Store `create` of §4.1 is not
part of the schema source; per the contract it fails with `DuplicateEmail`
when the email is already registered (case-insensitive uniqueness; the
schema declares the `email` column `unique=True`) and otherwise inserts a
new user record. -/
def createUser (db : DB) (email pwhash nm : String) : Except CoreError (DB × User) :=
  if db.users.any (fun u => decide (lowerEmail u.email = lowerEmail email))
  then .error .DuplicateEmail
  else
    let nu : User := ⟨nextUserId db.users, email, pwhash, nm⟩
    .ok ({ db with users := nu :: db.users }, nu)

/-! ## Account Ledger creation -/

def nextAccountId (accounts : List Account) : Nat :=
  1 + accounts.foldr (fun a m => max a.id m) 0

/-- Modelled from the spec: `createAccount` of §4.3 is not part of the
schema source; it inserts a record carrying the column defaults declared
in `account.py`: `balance` defaults to `Decimal("0.00")` (0 minor units),
`currency` defaults to `"USD"`, `is_active` defaults to `True`. -/
def createAccount (db : DB) (owner : Nat) (nm : String) (atype : AccountType)
    (currency : Option String) : DB × Account :=
  let a : Account :=
    ⟨nextAccountId db.accounts, owner, nm, atype, 0, currency.getD ("USD"), true⟩
  ({ db with accounts := a :: db.accounts }, a)

/-! ## Column-level transcription of the schema (for the representation
of monetary values) -/

/-- SQLAlchemy column types used by (or conceivably usable by) the
schema.  `floatCol` is included so that the absence of floating-point
money columns is expressible. -/
inductive ColType where
  | uuidCol
  | stringCol (maxLen : Nat)
  | textCol
  | boolCol
  | dateCol
  | enumCol
  | numericCol (precision scale : Nat)
  | floatCol
deriving DecidableEq, Repr

structure ColumnDef where
  colName : String
  ty : ColType
  nullable : Bool
deriving DecidableEq, Repr

/-- Columns of `users` (`user.py`; `id` from the `UUIDMixin`). -/
def usersColumns : List ColumnDef :=
  [⟨"id", .uuidCol, false⟩,
   ⟨"email", .stringCol 255, false⟩,
   ⟨"hashed_password", .stringCol 255, false⟩,
   ⟨"full_name", .stringCol 255, false⟩]

/-- Columns of `accounts` (`account.py`). -/
def accountsColumns : List ColumnDef :=
  [⟨"id", .uuidCol, false⟩,
   ⟨"user_id", .uuidCol, false⟩,
   ⟨"name", .stringCol 255, false⟩,
   ⟨"account_type", .enumCol, false⟩,
   ⟨"balance", .numericCol 15 2, false⟩,
   ⟨"currency", .stringCol 3, false⟩,
   ⟨"is_active", .boolCol, false⟩]

/-- Columns of `transaction_categories` (`category.py`). -/
def transactionCategoriesColumns : List ColumnDef :=
  [⟨"id", .uuidCol, false⟩,
   ⟨"user_id", .uuidCol, true⟩,
   ⟨"name", .stringCol 100, false⟩,
   ⟨"category_type", .enumCol, false⟩,
   ⟨"color", .stringCol 7, true⟩,
   ⟨"icon", .stringCol 50, true⟩,
   ⟨"is_system", .boolCol, false⟩,
   ⟨"parent_category_id", .uuidCol, true⟩]

/-- Columns of `transactions` (`transaction.py`). -/
def transactionsColumns : List ColumnDef :=
  [⟨"id", .uuidCol, false⟩,
   ⟨"account_id", .uuidCol, false⟩,
   ⟨"category_id", .uuidCol, true⟩,
   ⟨"amount", .numericCol 15 2, false⟩,
   ⟨"transaction_type", .enumCol, false⟩,
   ⟨"description", .stringCol 255, false⟩,
   ⟨"transaction_date", .dateCol, false⟩,
   ⟨"notes", .textCol, true⟩,
   ⟨"linked_transaction_id", .uuidCol, true⟩]

/-- Columns of `budgets` (`budget.py`). -/
def budgetsColumns : List ColumnDef :=
  [⟨"id", .uuidCol, false⟩,
   ⟨"user_id", .uuidCol, false⟩,
   ⟨"category_id", .uuidCol, false⟩,
   ⟨"amount", .numericCol 15 2, false⟩,
   ⟨"period", .enumCol, false⟩,
   ⟨"start_date", .dateCol, false⟩,
   ⟨"end_date", .dateCol, true⟩]

def schemaTables : List String :=
  ["users", "accounts", "transaction_categories", "transactions", "budgets"]

def tableColumns (t : String) : List ColumnDef :=
  if t = "users" then usersColumns
  else if t = "accounts" then accountsColumns
  else if t = "transaction_categories" then transactionCategoriesColumns
  else if t = "transactions" then transactionsColumns
  else if t = "budgets" then budgetsColumns
  else []

def lookupColType (t c : String) : Option ColType :=
  ((tableColumns t).find? (fun col => col.colName == c)).map (fun col => col.ty)

/-- The three monetary columns of the schema. -/
def moneyColumns : List (String × String) :=
  [("accounts", "balance"), ("transactions", "amount"), ("budgets", "amount")]

/-! ## Concrete sample states (used by witnesses and counterexamples) -/

def userW : User := ⟨1, "alice@example.com", "h1", "Alice"⟩

def userB : User := ⟨2, "bob@example.com", "h2", "Bob"⟩

def accW1 : Account := ⟨1, 1, "Checking", .checking, 0, "USD", true⟩

def accW2 : Account := ⟨2, 1, "Savings", .savings, 0, "USD", true⟩

def accB : Account := ⟨3, 2, "BobCash", .cash, 0, "USD", true⟩

def catW : TransactionCategory := ⟨1, some 1, "Food", .expense, none, none, false, none⟩

def catWsub : TransactionCategory := ⟨2, some 1, "Snacks", .expense, none, none, false, some 1⟩

def catWgrand : TransactionCategory := ⟨3, some 1, "Chips", .expense, none, none, false, some 2⟩

def txW : Transaction := ⟨1, 1, some 1, -1000, .expense, "lunch", 10, none, none⟩

def budW : Budget := ⟨1, 1, 1, 40000, .monthly, 0, none⟩

/-- Sample state with a category tree, a categorized transaction and a
budget. -/
def dbW : DB := ⟨[userW], [accW1, accW2], [catW, catWsub, catWgrand], [txW], [budW]⟩

/-- Sample state with two users owning separate accounts. -/
def dbW2 : DB := ⟨[userW, userB], [accW1, accB], [], [txW], []⟩

/-- Clean state of the §8 scenario: two active accounts with balance
0.00, no transactions yet. -/
def dbC1 : DB := ⟨[userW], [accW1, accW2], [], [], []⟩

/-- The debit leg produced by the §8 scenario transfer of 50.00. -/
def txDebit : Transaction := ⟨1, 1, none, -5000, .transfer, "rent", 0, none, some 2⟩

/-- The credit leg produced by the §8 scenario transfer of 50.00. -/
def txCredit : Transaction := ⟨2, 2, none, 5000, .transfer, "rent", 0, none, some 1⟩

/-- The state after the §8 scenario transfer: balances -50.00 and +50.00
and the two mutually linked transfer legs. -/
def dbPair : DB :=
  ⟨[userW],
   [⟨1, 1, "Checking", .checking, -5000, "USD", true⟩,
    ⟨2, 1, "Savings", .savings, 5000, "USD", true⟩],
   [], [txDebit, txCredit], []⟩

/-! ## Helper lemmas about the cascade closure and field-preserving maps -/

theorem clearLink_id (tid : Nat) (t : Transaction) : (clearLink tid t).id = t.id := by
  unfold clearLink
  split <;> rfl

theorem clearLink_account_id (tid : Nat) (t : Transaction) :
    (clearLink tid t).account_id = t.account_id := by
  unfold clearLink
  split <;> rfl

theorem clearLink_amount (tid : Nat) (t : Transaction) : (clearLink tid t).amount = t.amount := by
  unfold clearLink
  split <;> rfl

theorem clearLink_transaction_type (tid : Nat) (t : Transaction) :
    (clearLink tid t).transaction_type = t.transaction_type := by
  unfold clearLink
  split <;> rfl

theorem clearLinks_id (r : List Nat) (t : Transaction) : (clearLinks r t).id = t.id := by
  unfold clearLinks
  split
  · rfl
  · split <;> rfl

theorem clearLinks_account_id (r : List Nat) (t : Transaction) :
    (clearLinks r t).account_id = t.account_id := by
  unfold clearLinks
  split
  · rfl
  · split <;> rfl

theorem clearCategoryRef_id (r : List Nat) (t : Transaction) : (clearCategoryRef r t).id = t.id := by
  unfold clearCategoryRef
  split
  · rfl
  · split <;> rfl

theorem clearCategoryRef_account_id (r : List Nat) (t : Transaction) :
    (clearCategoryRef r t).account_id = t.account_id := by
  unfold clearCategoryRef
  split
  · rfl
  · split <;> rfl

theorem clearCategoryRef_amount (r : List Nat) (t : Transaction) :
    (clearCategoryRef r t).amount = t.amount := by
  unfold clearCategoryRef
  split
  · rfl
  · split <;> rfl

theorem clearCategoryRef_transaction_type (r : List Nat) (t : Transaction) :
    (clearCategoryRef r t).transaction_type = t.transaction_type := by
  unfold clearCategoryRef
  split
  · rfl
  · split <;> rfl

theorem hasPartner_cons (x : Transaction) (ts : List Transaction) (t : Transaction)
    (h : hasPartner ts t = true) : hasPartner (x :: ts) t = true := by
  cases hl : t.linked_transaction_id with
  | none =>
    simp only [hasPartner, hl] at h
    exact absurd h (by simp)
  | some l =>
    simp only [hasPartner, hl] at h ⊢
    simp only [List.any_cons, h, Bool.or_true]

theorem mem_closureStep_of_mem {cats : List TransactionCategory} {s : List Nat} {a : Nat}
    (h : a ∈ s) : a ∈ closureStep cats s :=
  List.mem_append_left _ h

theorem mem_catClosureAux_of_mem (n : Nat) (cats : List TransactionCategory) (s : List Nat)
    (a : Nat) (h : a ∈ s) : a ∈ catClosureAux n cats s := by
  induction n generalizing s with
  | zero => exact h
  | succ n ih => exact ih _ (mem_closureStep_of_mem h)

theorem mem_catClosure_of_mem_roots (cats : List TransactionCategory) (roots : List Nat)
    (a : Nat) (h : a ∈ roots) : a ∈ catClosure cats roots :=
  mem_catClosureAux_of_mem _ _ _ _ h

/-- A direct child of a root of the cascade is itself marked removed. -/
theorem child_mem_catClosure (cats : List TransactionCategory) (roots : List Nat)
    (c : TransactionCategory) (hc : c ∈ cats) (p : Nat)
    (hp : c.parent_category_id = some p) (hproot : p ∈ roots) :
    c.id ∈ catClosure cats roots := by
  unfold catClosure
  obtain ⟨m, hm⟩ : ∃ m, cats.length = m + 1 := by
    cases cats with
    | nil => cases hc
    | cons x xs => exact ⟨xs.length, rfl⟩
  rw [hm]
  show c.id ∈ catClosureAux m cats (closureStep cats roots)
  apply mem_catClosureAux_of_mem
  by_cases hid : c.id ∈ roots
  · exact mem_closureStep_of_mem hid
  · unfold closureStep
    apply List.mem_append_right
    apply List.mem_map.2
    refine ⟨c, List.mem_filter.2 ⟨hc, ?_⟩, rfl⟩
    simp only [hp, List.contains, Bool.and_eq_true, Bool.not_eq_true']
    constructor
    · exact List.elem_iff.2 hproot
    · exact Bool.not_eq_true _ ▸ (fun hmem => hid (List.elem_iff.1 hmem))

theorem contains_eq_true_iff (l : List Nat) (x : Nat) : l.contains x = true ↔ x ∈ l := by
  simp [List.contains, List.elem_iff]

theorem contains_eq_false_iff (l : List Nat) (x : Nat) : l.contains x = false ↔ x ∉ l := by
  rw [Bool.eq_false_iff]
  constructor
  · intro h hx
    exact h ((contains_eq_true_iff l x).2 hx)
  · intro h hc
    exact h ((contains_eq_true_iff l x).1 hc)

/-- A category whose parent is already marked is added by one cascade
step. -/
theorem child_mem_closureStep (cats : List TransactionCategory) (s : List Nat)
    (c : TransactionCategory) (hc : c ∈ cats) (p : Nat)
    (hp : c.parent_category_id = some p) (hps : p ∈ s) (hnin : c.id ∉ s) :
    c.id ∈ closureStep cats s := by
  unfold closureStep
  apply List.mem_append_right
  apply List.mem_map.2
  refine ⟨c, List.mem_filter.2 ⟨hc, ?_⟩, rfl⟩
  simp only [hp]
  rw [(contains_eq_true_iff s p).2 hps, (contains_eq_false_iff s c.id).2 hnin]
  rfl

/-- What one cascade step can add: only ids of categories whose parent
was already marked. -/
theorem mem_closureStep_elim (cats : List TransactionCategory) (s : List Nat) (a : Nat)
    (h : a ∈ closureStep cats s) :
    a ∈ s ∨ ∃ c ∈ cats, c.id = a ∧ a ∉ s ∧ ∃ p, c.parent_category_id = some p ∧ p ∈ s := by
  unfold closureStep at h
  rcases List.mem_append.1 h with h1 | h2
  · exact Or.inl h1
  · right
    obtain ⟨c, hcf, hca⟩ := List.mem_map.1 h2
    have hcmem := (List.mem_filter.1 hcf).1
    have hpred := (List.mem_filter.1 hcf).2
    cases hpc : c.parent_category_id with
    | none =>
      rw [hpc] at hpred
      exact absurd hpred (by simp)
    | some p =>
      rw [hpc] at hpred
      have hpred2 : (s.contains p && !(s.contains c.id)) = true := hpred
      rw [Bool.and_eq_true] at hpred2
      have h2a := hpred2.2
      rw [Bool.not_eq_true'] at h2a
      have hanin : a ∉ s := hca ▸ (contains_eq_false_iff s c.id).1 h2a
      exact ⟨c, hcmem, hca, hanin, p, hpc, (contains_eq_true_iff s p).1 hpred2.1⟩

/-- One cascade step only looks at membership of the marked set. -/
theorem closureStep_congr (cats : List TransactionCategory) (s t : List Nat)
    (h : ∀ x, x ∈ s ↔ x ∈ t) (a : Nat) :
    a ∈ closureStep cats s ↔ a ∈ closureStep cats t := by
  have hcont : ∀ x : Nat, s.contains x = t.contains x := by
    intro x
    by_cases hx : x ∈ s
    · rw [(contains_eq_true_iff s x).2 hx, (contains_eq_true_iff t x).2 ((h x).1 hx)]
    · rw [(contains_eq_false_iff s x).2 hx,
        (contains_eq_false_iff t x).2 (fun hh => hx ((h x).2 hh))]
  have hpred : ∀ c ∈ cats,
      (match c.parent_category_id with
       | some p => s.contains p && !(s.contains c.id)
       | none => false) =
      (match c.parent_category_id with
       | some p => t.contains p && !(t.contains c.id)
       | none => false) := by
    intro c _
    cases hpc : c.parent_category_id with
    | none => rfl
    | some p =>
      show (s.contains p && !(s.contains c.id)) = (t.contains p && !(t.contains c.id))
      rw [hcont p, hcont c.id]
  unfold closureStep
  rw [List.mem_append, List.mem_append, List.filter_congr hpred]
  exact or_congr (h a) Iff.rfl

theorem catClosureAux_congr (k : Nat) (cats : List TransactionCategory) :
    ∀ s t, (∀ x, x ∈ s ↔ x ∈ t) →
      ∀ a, a ∈ catClosureAux k cats s ↔ a ∈ catClosureAux k cats t := by
  induction k with
  | zero => intro s t h a; exact h a
  | succ n ih =>
    intro s t h a
    simp only [catClosureAux]
    exact ih _ _ (closureStep_congr cats s t h) a

theorem mem_of_mem_closureStep_closed (cats : List TransactionCategory) (s : List Nat)
    (hcl : ∀ c ∈ cats, ∀ p, c.parent_category_id = some p → p ∈ s → c.id ∈ s)
    (a : Nat) (ha : a ∈ closureStep cats s) : a ∈ s := by
  rcases mem_closureStep_elim cats s a ha with h1 | ⟨c, hc, hid, hnin, p, hp, hps⟩
  · exact h1
  · exact absurd (hid ▸ hcl c hc p hp hps) hnin

/-- Once the marked set is closed under the parent step, further cascade
iterations change nothing. -/
theorem catClosureAux_of_closed (cats : List TransactionCategory) (k : Nat) :
    ∀ s, (∀ c ∈ cats, ∀ p, c.parent_category_id = some p → p ∈ s → c.id ∈ s) →
      ∀ a, a ∈ catClosureAux k cats s ↔ a ∈ s := by
  induction k with
  | zero => intro s _ a; exact Iff.rfl
  | succ n ih =>
    intro s hcl a
    simp only [catClosureAux]
    have hstep : ∀ x, x ∈ closureStep cats s ↔ x ∈ s :=
      fun x => ⟨mem_of_mem_closureStep_closed cats s hcl x, mem_closureStep_of_mem⟩
    exact (catClosureAux_congr n cats (closureStep cats s) s hstep a).trans (ih s hcl a)

theorem length_filter_mono {α : Type} (p q : α → Bool) :
    ∀ l : List α, (∀ x ∈ l, p x = true → q x = true) →
      (l.filter p).length ≤ (l.filter q).length := by
  intro l
  induction l with
  | nil => intro _; exact Nat.le_refl _
  | cons y ys ih =>
    intro h
    have ih2 := ih (fun z hz => h z (List.mem_cons_of_mem y hz))
    by_cases hpy : p y = true
    · rw [List.filter_cons_of_pos hpy,
        List.filter_cons_of_pos (h y (List.mem_cons_self y ys) hpy)]
      exact Nat.succ_le_succ ih2
    · rw [List.filter_cons_of_neg hpy]
      by_cases hqy : q y = true
      · rw [List.filter_cons_of_pos hqy]
        exact Nat.le_trans ih2 (Nat.le_succ _)
      · rw [List.filter_cons_of_neg hqy]
        exact ih2

theorem length_filter_lt {α : Type} (p q : α → Bool) (x0 : α)
    (hq0 : q x0 = true) (hp0 : p x0 = false) :
    ∀ l : List α, (∀ x ∈ l, p x = true → q x = true) → x0 ∈ l →
      (l.filter p).length < (l.filter q).length := by
  intro l
  induction l with
  | nil =>
    intro _ hx
    cases hx
  | cons y ys ih =>
    intro h hx0
    have hmono := length_filter_mono p q ys (fun z hz => h z (List.mem_cons_of_mem y hz))
    rcases List.mem_cons.1 hx0 with rfl | hx1
    · rw [List.filter_cons_of_neg (by rw [hp0]; simp), List.filter_cons_of_pos hq0]
      exact Nat.lt_succ_of_le hmono
    · have ih2 := ih (fun z hz => h z (List.mem_cons_of_mem y hz)) hx1
      by_cases hpy : p y = true
      · rw [List.filter_cons_of_pos hpy,
          List.filter_cons_of_pos (h y (List.mem_cons_self y ys) hpy)]
        exact Nat.succ_lt_succ ih2
      · rw [List.filter_cons_of_neg hpy]
        by_cases hqy : q y = true
        · rw [List.filter_cons_of_pos hqy]
          exact Nat.lt_succ_of_le (Nat.le_of_lt ih2)
        · rw [List.filter_cons_of_neg hqy]
          exact ih2

/-- Saturation: with fuel at least the number of still-unmarked
categories, the iterated cascade is closed under the parent step. -/
theorem catClosureAux_closed_of_fuel (cats : List TransactionCategory) :
    ∀ j s, (cats.filter (fun c => !(s.contains c.id))).length ≤ j →
      ∀ c ∈ cats, ∀ p, c.parent_category_id = some p →
        p ∈ catClosureAux j cats s → c.id ∈ catClosureAux j cats s := by
  intro j
  induction j with
  | zero =>
    intro s hm c hc p hp hps
    have h0 : cats.filter (fun x => !(s.contains x.id)) = [] :=
      List.length_eq_zero.1 (Nat.le_zero.1 hm)
    by_cases hb : s.contains c.id = true
    · exact (contains_eq_true_iff s c.id).1 hb
    · exfalso
      have hfalse : s.contains c.id = false := by
        cases hbb : s.contains c.id
        · rfl
        · exact absurd hbb hb
      have hmem : c ∈ cats.filter (fun x => !(s.contains x.id)) :=
        List.mem_filter.2 ⟨hc, by show (!(s.contains c.id)) = true; rw [hfalse]; rfl⟩
      rw [h0] at hmem
      cases hmem
  | succ n ih =>
    intro s hm c hc p hp hps
    by_cases hcl : ∀ c2 ∈ cats, ∀ p2, c2.parent_category_id = some p2 → p2 ∈ s → c2.id ∈ s
    · have hiff := catClosureAux_of_closed cats (n + 1) s hcl
      exact (hiff c.id).2 (hcl c hc p hp ((hiff p).1 hps))
    · push_neg at hcl
      obtain ⟨c0, hc0, p0, hp0, hps0, hnid0⟩ := hcl
      have hstep0 : c0.id ∈ closureStep cats s :=
        child_mem_closureStep cats s c0 hc0 p0 hp0 hps0 hnid0
      have hlt : (cats.filter (fun x => !((closureStep cats s).contains x.id))).length <
          (cats.filter (fun x => !(s.contains x.id))).length := by
        refine length_filter_lt _ _ c0 ?_ ?_ cats ?_ hc0
        · show (!(s.contains c0.id)) = true
          rw [(contains_eq_false_iff s c0.id).2 hnid0]
          rfl
        · show (!((closureStep cats s).contains c0.id)) = false
          rw [(contains_eq_true_iff (closureStep cats s) c0.id).2 hstep0]
          rfl
        · intro x _ hx
          show (!(s.contains x.id)) = true
          have hx1 : (closureStep cats s).contains x.id = false := by
            have hx0 : (!((closureStep cats s).contains x.id)) = true := hx
            rw [Bool.not_eq_true'] at hx0
            exact hx0
          have hxnin : x.id ∉ closureStep cats s := (contains_eq_false_iff _ _).1 hx1
          have hxnins : x.id ∉ s := fun hh => hxnin (mem_closureStep_of_mem hh)
          rw [(contains_eq_false_iff s x.id).2 hxnins]
          rfl
      simp only [catClosureAux] at hps ⊢
      exact ih (closureStep cats s) (by omega) c hc p hp hps

/-- The cascade-removal set is closed under the parent step: a category
whose parent is removed is removed. -/
theorem catClosure_closed (cats : List TransactionCategory) (roots : List Nat)
    (c : TransactionCategory) (hc : c ∈ cats) (p : Nat)
    (hp : c.parent_category_id = some p) (hps : p ∈ catClosure cats roots) :
    c.id ∈ catClosure cats roots := by
  unfold catClosure at hps ⊢
  exact catClosureAux_closed_of_fuel cats cats.length roots
    (List.length_filter_le _ _) c hc p hp hps

/-- Every category having a root of the cascade among itself or its
ancestors (at any walk depth) is marked removed. -/
theorem descendant_mem_catClosure (cats : List TransactionCategory) (roots : List Nat)
    (cid : Nat) (hcid : cid ∈ roots) :
    ∀ g i, cid ∈ ancChainIncl g cats i → i ∈ catClosure cats roots := by
  intro g
  induction g with
  | zero =>
    intro i hmem
    simp only [ancChainIncl] at hmem
    rw [← List.mem_singleton.1 hmem]
    exact mem_catClosure_of_mem_roots cats roots cid hcid
  | succ n ih =>
    intro i hmem
    simp only [ancChainIncl] at hmem
    rcases List.mem_cons.1 hmem with heq | hrest
    · rw [← heq]
      exact mem_catClosure_of_mem_roots cats roots cid hcid
    · cases hs : stepPar cats i with
      | none =>
        rw [hs] at hrest
        cases hrest
      | some p =>
        rw [hs] at hrest
        have hpD : p ∈ catClosure cats roots := ih p hrest
        unfold stepPar at hs
        cases hf : findCat cats i with
        | none =>
          rw [hf] at hs
          exact absurd hs (by simp)
        | some cf =>
          rw [hf] at hs
          have hcfp : cf.parent_category_id = some p := hs
          have hcfin : cf ∈ cats := List.mem_of_find?_eq_some hf
          have hcfid : cf.id = i := by simpa using List.find?_some hf
          rw [← hcfid]
          exact catClosure_closed cats roots cf hcfin p hcfp hpD

/-! ## Helper lemmas for the Category Tree invariant -/

theorem setParentUpd_id (cid : Nat) (q : Option Nat) (c : TransactionCategory) :
    (setParentUpd cid q c).id = c.id := by
  unfold setParentUpd
  split <;> rfl

theorem setParentUpd_user_id (cid : Nat) (q : Option Nat) (c : TransactionCategory) :
    (setParentUpd cid q c).user_id = c.user_id := by
  unfold setParentUpd
  split <;> rfl

theorem findCat_map (f : TransactionCategory → TransactionCategory)
    (hf : ∀ c, (f c).id = c.id) (cats : List TransactionCategory) (i : Nat) :
    findCat (cats.map f) i = (findCat cats i).map f := by
  induction cats with
  | nil => rfl
  | cons c cs ih =>
    by_cases hci : (c.id == i) = true
    · unfold findCat
      rw [List.map_cons,
        @List.find?_cons_of_pos _ (fun x => x.id == i) (f c) (cs.map f)
          (by show ((f c).id == i) = true; rw [hf c]; exact hci),
        @List.find?_cons_of_pos _ (fun x => x.id == i) c cs hci]
      rfl
    · unfold findCat
      rw [List.map_cons,
        @List.find?_cons_of_neg _ (fun x => x.id == i) (f c) (cs.map f)
          (by show ¬((f c).id == i) = true; rw [hf c]; exact hci),
        @List.find?_cons_of_neg _ (fun x => x.id == i) c cs hci]
      exact ih

theorem findCat_setParent (cats : List TransactionCategory) (cid : Nat) (q : Option Nat)
    (i : Nat) :
    findCat (setParent cats cid q) i = (findCat cats i).map (setParentUpd cid q) :=
  findCat_map _ (setParentUpd_id cid q) cats i

theorem findCat_cons_ne (x : TransactionCategory) (cats : List TransactionCategory) (i : Nat)
    (h : x.id ≠ i) : findCat (x :: cats) i = findCat cats i := by
  unfold findCat
  rw [List.find?_cons_of_neg _ (by simp [h])]

theorem findCat_cons_self (x : TransactionCategory) (cats : List TransactionCategory) :
    findCat (x :: cats) x.id = some x := by
  unfold findCat
  rw [List.find?_cons_of_pos _ (by simp)]

theorem stepPar_setParent_ne (cats : List TransactionCategory) (cid : Nat) (q : Option Nat)
    (i : Nat) (h : i ≠ cid) : stepPar (setParent cats cid q) i = stepPar cats i := by
  unfold stepPar
  rw [findCat_setParent]
  cases hf : findCat cats i with
  | none => rfl
  | some c =>
    have hcid : c.id = i := by simpa using List.find?_some hf
    rw [Option.map_some']
    show (setParentUpd cid q c).parent_category_id = c.parent_category_id
    unfold setParentUpd
    rw [if_neg (by rw [hcid]; exact h)]

theorem stepPar_setParent_self (cats : List TransactionCategory) (cid : Nat) (q : Option Nat)
    (c : TransactionCategory) (hf : findCat cats cid = some c) :
    stepPar (setParent cats cid q) cid = q := by
  unfold stepPar
  rw [findCat_setParent, hf, Option.map_some']
  show (setParentUpd cid q c).parent_category_id = q
  unfold setParentUpd
  have hcid : c.id = cid := by simpa using List.find?_some hf
  rw [if_pos hcid]

theorem setParent_map_id (cats : List TransactionCategory) (cid : Nat) (q : Option Nat) :
    (setParent cats cid q).map (fun c => c.id) = cats.map (fun c => c.id) := by
  unfold setParent
  rw [List.map_map]
  exact List.map_congr_left (fun c _ => by
    show (setParentUpd cid q c).id = c.id
    exact setParentUpd_id cid q c)

theorem chainEndsAtRoot_mono (cats : List TransactionCategory) (f : Nat) :
    ∀ g i, f ≤ g → chainEndsAtRoot f cats i = true → chainEndsAtRoot g cats i = true := by
  induction f with
  | zero =>
    intro g i _ hfalse
    exact absurd hfalse (by simp [chainEndsAtRoot])
  | succ n ih =>
    intro g i hle h
    obtain ⟨g', rfl⟩ : ∃ g', g = g' + 1 := ⟨g - 1, by omega⟩
    simp only [chainEndsAtRoot] at h ⊢
    cases hs : stepPar cats i with
    | none => rfl
    | some p =>
      rw [hs] at h
      exact ih g' p (by omega) h

theorem chainEndsAtRoot_setParent_of_avoid (cats : List TransactionCategory) (cid : Nat)
    (q : Option Nat) (f : Nat) :
    ∀ i, cid ∉ ancChainIncl f cats i → chainEndsAtRoot f cats i = true →
      chainEndsAtRoot f (setParent cats cid q) i = true := by
  induction f with
  | zero =>
    intro i _ hfalse
    exact absurd hfalse (by simp [chainEndsAtRoot])
  | succ n ih =>
    intro i hnm h
    have hine : i ≠ cid := by
      intro hh
      apply hnm
      rw [← hh]
      simp [ancChainIncl]
    simp only [chainEndsAtRoot] at h ⊢
    simp only [ancChainIncl] at hnm
    cases hs : stepPar cats i with
    | none => rw [stepPar_setParent_ne cats cid q i hine, hs]
    | some p =>
      rw [hs] at hnm h
      have hnm' : cid ∉ ancChainIncl n cats p := fun hx => hnm (List.mem_cons_of_mem _ hx)
      rw [stepPar_setParent_ne cats cid q i hine, hs]
      exact ih p hnm' h

theorem chainEndsAtRoot_setParent_lift (cats : List TransactionCategory) (cid : Nat)
    (q : Option Nat) (K : Nat)
    (hK : chainEndsAtRoot K (setParent cats cid q) cid = true) (f : Nat) :
    ∀ i, chainEndsAtRoot f cats i = true →
      chainEndsAtRoot (f + K) (setParent cats cid q) i = true := by
  induction f with
  | zero =>
    intro i hfalse
    exact absurd hfalse (by simp [chainEndsAtRoot])
  | succ n ih =>
    intro i h
    by_cases hic : i = cid
    · subst hic
      exact chainEndsAtRoot_mono _ K (n + 1 + K) i (by omega) hK
    · simp only [chainEndsAtRoot] at h
      cases hs : stepPar cats i with
      | none =>
        have h1 : chainEndsAtRoot 1 (setParent cats cid q) i = true := by
          simp only [chainEndsAtRoot]
          rw [stepPar_setParent_ne cats cid q i hic, hs]
        exact chainEndsAtRoot_mono _ 1 (n + 1 + K) i (by omega) h1
      | some p =>
        rw [hs] at h
        have h2 : chainEndsAtRoot (n + K + 1) (setParent cats cid q) i = true := by
          simp only [chainEndsAtRoot]
          rw [stepPar_setParent_ne cats cid q i hic, hs]
          exact ih p h
        exact chainEndsAtRoot_mono _ (n + K + 1) (n + 1 + K) i (by omega) h2

theorem chainEndsAtRoot_cons (newC : TransactionCategory) (cats : List TransactionCategory)
    (hscope : ScopeOk cats) (hbound : ∀ y ∈ cats, y.id < newC.id) (f : Nat) :
    ∀ i, i ≠ newC.id → chainEndsAtRoot f cats i = true →
      chainEndsAtRoot f (newC :: cats) i = true := by
  induction f with
  | zero =>
    intro i _ hfalse
    exact absurd hfalse (by simp [chainEndsAtRoot])
  | succ n ih =>
    intro i hine h
    simp only [chainEndsAtRoot] at h ⊢
    have hfc : findCat (newC :: cats) i = findCat cats i :=
      findCat_cons_ne newC cats i (fun hh => hine hh.symm)
    have hstep : stepPar (newC :: cats) i = stepPar cats i := by
      unfold stepPar
      rw [hfc]
    cases hs : stepPar cats i with
    | none => rw [hstep, hs]
    | some p =>
      rw [hs] at h
      have hple : p ≠ newC.id := by
        unfold stepPar at hs
        cases hf : findCat cats i with
        | none =>
          rw [hf] at hs
          exact absurd hs (by simp)
        | some c =>
          rw [hf] at hs
          have hcp : c.parent_category_id = some p := hs
          have hcin : c ∈ cats := List.mem_of_find?_eq_some hf
          obtain ⟨pc, hpc, _⟩ := hscope c hcin p hcp
          have hpcin : pc ∈ cats := List.mem_of_find?_eq_some hpc
          have hpcid : pc.id = p := by simpa using List.find?_some hpc
          have := hbound pc hpcin
          omega
      rw [hstep, hs]
      exact ih p hple h

theorem le_foldr_max_cat (cats : List TransactionCategory) (c : TransactionCategory)
    (hc : c ∈ cats) : c.id ≤ cats.foldr (fun c m => max c.id m) 0 := by
  induction cats with
  | nil => cases hc
  | cons x xs ih =>
    rcases List.mem_cons.1 hc with rfl | hx
    · exact le_max_left _ _
    · exact le_trans (ih hx) (le_max_right _ _)

theorem id_lt_nextCatId (cats : List TransactionCategory) (c : TransactionCategory)
    (hc : c ∈ cats) : c.id < nextCatId cats := by
  unfold nextCatId
  have := le_foldr_max_cat cats c hc
  omega

theorem chainEndsAtRoot_of_mem_chain (cats : List TransactionCategory) (g : Nat) :
    ∀ f i j, chainEndsAtRoot f cats i = true → j ∈ ancChainIncl g cats i →
      chainEndsAtRoot f cats j = true := by
  induction g with
  | zero =>
    intro f i j hch hj
    simp only [ancChainIncl] at hj
    rw [List.mem_singleton.1 hj]
    exact hch
  | succ n ih =>
    intro f i j hch hj
    simp only [ancChainIncl] at hj
    rcases List.mem_cons.1 hj with rfl | hj2
    · exact hch
    · cases hs : stepPar cats i with
      | none =>
        rw [hs] at hj2
        cases hj2
      | some p =>
        rw [hs] at hj2
        cases f with
        | zero => exact absurd hch (by simp [chainEndsAtRoot])
        | succ m =>
          simp only [chainEndsAtRoot] at hch
          rw [hs] at hch
          exact chainEndsAtRoot_mono cats m (m + 1) j (by omega) (ih m p j hch hj2)

theorem no_self_mem_chain_of_ends (cats : List TransactionCategory) (f : Nat) :
    ∀ i p g, chainEndsAtRoot f cats i = true → stepPar cats i = some p →
      i ∈ ancChainIncl g cats p → False := by
  induction f with
  | zero =>
    intro i p g h _ _
    exact absurd h (by simp [chainEndsAtRoot])
  | succ n ih =>
    intro i p g h hs hmem
    have hchp : chainEndsAtRoot n cats p = true := by
      simp only [chainEndsAtRoot] at h
      rw [hs] at h
      exact h
    exact ih i p g (chainEndsAtRoot_of_mem_chain cats g n p i hchp hmem) hs hmem

theorem noSelfAncestor_of_chainsFinite (cats : List TransactionCategory)
    (h : ChainsFinite cats) : NoSelfAncestor cats := by
  intro c hc p hs g hmem
  obtain ⟨f, hf⟩ := h c hc
  exact no_self_mem_chain_of_ends cats f c.id p g hf hs hmem

theorem scopeOk_setParent (cats : List TransactionCategory) (cid : Nat) (p : Nat)
    (hnodup : (cats.map (fun c => c.id)).Nodup) (hscope : ScopeOk cats)
    (c : TransactionCategory) (hfc : findCat cats cid = some c)
    (pc : TransactionCategory) (hfp : findCat cats p = some pc)
    (huser : pc.user_id = c.user_id) : ScopeOk (setParent cats cid (some p)) := by
  intro x' hx' r hr
  unfold setParent at hx'
  obtain ⟨x, hx, rfl⟩ := List.mem_map.1 hx'
  by_cases hxc : x.id = cid
  · have hceq : x = c := by
      have hcin : c ∈ cats := List.mem_of_find?_eq_some hfc
      have hcid : c.id = cid := by simpa using List.find?_some hfc
      exact List.inj_on_of_nodup_map hnodup hx hcin (by rw [hxc, hcid])
    have hpar : (setParentUpd cid (some p) x).parent_category_id = some p := by
      unfold setParentUpd
      rw [if_pos hxc]
    rw [hpar] at hr
    obtain rfl : p = r := Option.some.inj hr
    refine ⟨setParentUpd cid (some p) pc, ?_, ?_⟩
    · rw [findCat_setParent, hfp]
      rfl
    · rw [setParentUpd_user_id, setParentUpd_user_id, huser, hceq]
  · have hxeq : setParentUpd cid (some p) x = x := by
      unfold setParentUpd
      rw [if_neg hxc]
    rw [hxeq] at hr ⊢
    obtain ⟨pc0, hpc0, hu0⟩ := hscope x hx r hr
    refine ⟨setParentUpd cid (some p) pc0, ?_, ?_⟩
    · rw [findCat_setParent, hpc0]
      rfl
    · rw [setParentUpd_user_id]
      exact hu0

theorem scopeOk_setParent_none (cats : List TransactionCategory) (cid : Nat)
    (hscope : ScopeOk cats) : ScopeOk (setParent cats cid none) := by
  intro x' hx' r hr
  unfold setParent at hx'
  obtain ⟨x, hx, rfl⟩ := List.mem_map.1 hx'
  by_cases hxc : x.id = cid
  · have hpar : (setParentUpd cid none x).parent_category_id = none := by
      unfold setParentUpd
      rw [if_pos hxc]
    rw [hpar] at hr
    exact absurd hr (by simp)
  · have hxeq : setParentUpd cid none x = x := by
      unfold setParentUpd
      rw [if_neg hxc]
    rw [hxeq] at hr ⊢
    obtain ⟨pc0, hpc0, hu0⟩ := hscope x hx r hr
    refine ⟨setParentUpd cid none pc0, ?_, ?_⟩
    · rw [findCat_setParent, hpc0]
      rfl
    · rw [setParentUpd_user_id]
      exact hu0

theorem scopeOk_cons (cats : List TransactionCategory) (newC : TransactionCategory)
    (hscope : ScopeOk cats) (hbound : ∀ y ∈ cats, y.id < newC.id)
    (hpar : ∀ p, newC.parent_category_id = some p →
      ∃ pc, findCat cats p = some pc ∧ pc.user_id = newC.user_id) :
    ScopeOk (newC :: cats) := by
  intro x hx r hr
  rcases List.mem_cons.1 hx with rfl | hx2
  · obtain ⟨pc, hpc, hu⟩ := hpar r hr
    have hpcin := List.mem_of_find?_eq_some hpc
    have hpcid : pc.id = r := by simpa using List.find?_some hpc
    have hrne : x.id ≠ r := by
      have := hbound pc hpcin
      omega
    exact ⟨pc, by rw [findCat_cons_ne x cats r hrne]; exact hpc, hu⟩
  · obtain ⟨pc, hpc, hu⟩ := hscope x hx2 r hr
    have hpcin := List.mem_of_find?_eq_some hpc
    have hpcid : pc.id = r := by simpa using List.find?_some hpc
    have hrne : newC.id ≠ r := by
      have := hbound pc hpcin
      omega
    exact ⟨pc, by rw [findCat_cons_ne newC cats r hrne]; exact hpc, hu⟩

theorem chainsFinite_cons (cats : List TransactionCategory) (newC : TransactionCategory)
    (hscope : ScopeOk cats) (hbound : ∀ y ∈ cats, y.id < newC.id)
    (hfin : ChainsFinite cats)
    (hpar : ∀ p, newC.parent_category_id = some p → ∃ pc, findCat cats p = some pc) :
    ChainsFinite (newC :: cats) := by
  intro x hx
  rcases List.mem_cons.1 hx with rfl | hx2
  · cases hp : x.parent_category_id with
    | none =>
      refine ⟨1, ?_⟩
      simp only [chainEndsAtRoot]
      have hstep : stepPar (x :: cats) x.id = none := by
        unfold stepPar
        rw [findCat_cons_self]
        exact hp
      rw [hstep]
    | some p =>
      obtain ⟨pc, hpc⟩ := hpar p hp
      have hpcin := List.mem_of_find?_eq_some hpc
      have hpcid : pc.id = p := by simpa using List.find?_some hpc
      obtain ⟨f, hf⟩ := hfin pc hpcin
      rw [hpcid] at hf
      have hpne : p ≠ x.id := by
        have := hbound pc hpcin
        omega
      have hf' := chainEndsAtRoot_cons x cats hscope hbound f p hpne hf
      refine ⟨f + 1, ?_⟩
      simp only [chainEndsAtRoot]
      have hstep : stepPar (x :: cats) x.id = some p := by
        unfold stepPar
        rw [findCat_cons_self]
        exact hp
      rw [hstep]
      exact hf'
  · obtain ⟨f, hf⟩ := hfin x hx2
    have hxne : x.id ≠ newC.id := by
      have := hbound x hx2
      omega
    exact ⟨f, chainEndsAtRoot_cons newC cats hscope hbound f x.id hxne hf⟩

theorem chainsFinite_setParent_of_cid (cats : List TransactionCategory) (cid : Nat)
    (q : Option Nat) (K : Nat)
    (hcid : chainEndsAtRoot K (setParent cats cid q) cid = true)
    (hfin : ChainsFinite cats) : ChainsFinite (setParent cats cid q) := by
  intro x' hx'
  unfold setParent at hx'
  obtain ⟨x, hx, rfl⟩ := List.mem_map.1 hx'
  obtain ⟨f, hf⟩ := hfin x hx
  rw [setParentUpd_id]
  exact ⟨f + K, chainEndsAtRoot_setParent_lift cats cid q K hcid f x.id hf⟩

/-! ## C3, C4, C5: delete-time behaviour declared by the schema -/

/-- C3 (confirmed): for every transaction whose linked counterpart is
deleted, the surviving transaction is not deleted: it remains in the
journal with the same id, account, amount and type, and its link field is
cleared to `none` — the `ondelete="SET NULL"` declared on
`Transaction.linked_transaction_id`. -/
theorem deleteTransaction_clears_link_keeps_row (db : DB) (tid : Nat) (t : Transaction)
    (ht : t ∈ db.transactions) (hne : t.id ≠ tid)
    (hlink : t.linked_transaction_id = some tid) :
    ∃ u ∈ (deleteTransaction db tid).transactions,
      u.id = t.id ∧ u.account_id = t.account_id ∧ u.amount = t.amount ∧
      u.transaction_type = t.transaction_type ∧ u.linked_transaction_id = none := by
  refine ⟨clearLink tid t, ?_, clearLink_id tid t, clearLink_account_id tid t,
    clearLink_amount tid t, clearLink_transaction_type tid t, ?_⟩
  · show clearLink tid t ∈ (deleteTransaction db tid).transactions
    unfold deleteTransaction
    apply List.mem_map_of_mem
    exact List.mem_filter.2 ⟨ht, by simp [hne]⟩
  · simp [clearLink, hlink]

/-- C3 witness: in the post-transfer sample state, deleting the debit leg
leaves the credit leg present with its link cleared. -/
theorem deleteTransaction_clears_link_keeps_row_witness :
    ∃ u ∈ (deleteTransaction dbPair 1).transactions,
      u.id = txCredit.id ∧ u.account_id = txCredit.account_id ∧ u.amount = txCredit.amount ∧
      u.transaction_type = txCredit.transaction_type ∧ u.linked_transaction_id = none :=
  deleteTransaction_clears_link_keeps_row dbPair 1 txCredit (by decide) (by decide) (by decide)

/-- C4 (confirmed): deleting a user removes every account, category and
budget owned by the user, and — transitively through the account cascade —
every transaction on an account of the user; no owned record survives. -/
theorem deleteUser_removes_owned (db : DB) (uid : Nat) :
    (∀ u ∈ (deleteUser db uid).users, u.id ≠ uid) ∧
    (∀ a ∈ (deleteUser db uid).accounts, a.user_id ≠ uid) ∧
    (∀ c ∈ (deleteUser db uid).transaction_categories, c.user_id ≠ some uid) ∧
    (∀ b ∈ (deleteUser db uid).budgets, b.user_id ≠ uid) ∧
    (∀ t ∈ (deleteUser db uid).transactions, ∀ a ∈ db.accounts,
        a.id = t.account_id → a.user_id ≠ uid) := by
  refine ⟨?_, ?_, ?_, ?_, ?_⟩
  · intro u hu
    simp only [deleteUser] at hu
    simpa using (List.mem_filter.1 hu).2
  · intro a ha
    simp only [deleteUser] at ha
    simpa using (List.mem_filter.1 ha).2
  · intro c hc hcu
    simp only [deleteUser] at hc
    have hmem := (List.mem_filter.1 hc).1
    have hpred := (List.mem_filter.1 hc).2
    have hin : c.id ∈ catClosure db.transaction_categories
        ((db.transaction_categories.filter (fun c => c.user_id == some uid)).map
          (fun c => c.id)) := by
      apply mem_catClosure_of_mem_roots
      exact List.mem_map.2 ⟨c, List.mem_filter.2 ⟨hmem, by simp [hcu]⟩, rfl⟩
    rw [Bool.not_eq_true', ← Bool.not_eq_true] at hpred
    exact hpred (by simpa [List.contains] using List.elem_iff.2 hin)
  · intro b hb
    simp only [deleteUser] at hb
    have hpred := (List.mem_filter.1 hb).2
    intro hbu
    simp [hbu] at hpred
  · intro t ht a ha haid hau
    simp only [deleteUser] at ht
    obtain ⟨t1, ht1, rfl⟩ := List.mem_map.1 ht
    obtain ⟨t0, ht0, rfl⟩ := List.mem_map.1 ht1
    rw [clearCategoryRef_account_id, clearLinks_account_id] at haid
    have hpred := (List.mem_filter.1 ht0).2
    have hin : a.id ∈ (db.accounts.filter (fun x => x.user_id == uid)).map (fun x => x.id) :=
      List.mem_map.2 ⟨a, List.mem_filter.2 ⟨ha, by simp [hau]⟩, rfl⟩
    rw [haid] at hin
    rw [Bool.not_eq_true', ← Bool.not_eq_true] at hpred
    exact hpred (by simpa [List.contains] using List.elem_iff.2 hin)

/-- C4 witness: with two users, deleting user 2 keeps user 1's transaction,
whose account is owned by user 1 and not by user 2. -/
theorem deleteUser_removes_owned_witness : accW1.user_id ≠ 2 :=
  (deleteUser_removes_owned dbW2 2).2.2.2.2 txW (by decide) accW1 (by decide) (by decide)

/-- C5 (confirmed): deleting a category removes it together with its
entire subcategory subtree — every pre-state category that has the
deleted category among itself or its ancestors, at any depth, is gone,
and in particular no surviving category has it as parent — each
surviving category is an unchanged record of the pre-state (none is
re-parented); the budgets targeting the deleted category are removed;
and every transaction survives — same id, account, amount and type —
with a reference to the deleted category cleared to `none`. -/
theorem deleteCategory_cascades (db : DB) (cid : Nat) :
    (∀ c ∈ (deleteCategory db cid).transaction_categories, c.id ≠ cid) ∧
    (∀ c ∈ (deleteCategory db cid).transaction_categories, c.parent_category_id ≠ some cid) ∧
    (∀ c ∈ (deleteCategory db cid).transaction_categories, c ∈ db.transaction_categories) ∧
    (∀ c ∈ db.transaction_categories,
        (∃ g, cid ∈ ancChainIncl g db.transaction_categories c.id) →
        c ∉ (deleteCategory db cid).transaction_categories) ∧
    (∀ b ∈ (deleteCategory db cid).budgets, b.category_id ≠ cid) ∧
    (∀ t ∈ db.transactions, ∃ u ∈ (deleteCategory db cid).transactions,
        u.id = t.id ∧ u.account_id = t.account_id ∧ u.amount = t.amount ∧
        u.transaction_type = t.transaction_type ∧
        (t.category_id = some cid → u.category_id = none)) ∧
    (∀ u ∈ (deleteCategory db cid).transactions, ∃ t ∈ db.transactions, u.id = t.id) := by
  have hcidin : cid ∈ catClosure db.transaction_categories [cid] :=
    mem_catClosure_of_mem_roots _ _ _ (List.mem_singleton.2 rfl)
  refine ⟨?_, ?_, ?_, ?_, ?_, ?_, ?_⟩
  · intro c hc hceq
    simp only [deleteCategory] at hc
    have hpred := (List.mem_filter.1 hc).2
    rw [Bool.not_eq_true', ← Bool.not_eq_true] at hpred
    exact hpred (by simpa [List.contains, hceq] using List.elem_iff.2 hcidin)
  · intro c hc hp
    simp only [deleteCategory] at hc
    have hmem := (List.mem_filter.1 hc).1
    have hpred := (List.mem_filter.1 hc).2
    have hin : c.id ∈ catClosure db.transaction_categories [cid] :=
      child_mem_catClosure _ _ c hmem cid hp (List.mem_singleton.2 rfl)
    rw [Bool.not_eq_true', ← Bool.not_eq_true] at hpred
    exact hpred (by simpa [List.contains] using List.elem_iff.2 hin)
  · intro c hc
    simp only [deleteCategory] at hc
    exact (List.mem_filter.1 hc).1
  · intro c _ hex hsurv
    obtain ⟨g, hg⟩ := hex
    simp only [deleteCategory] at hsurv
    have hpred := (List.mem_filter.1 hsurv).2
    have hin : c.id ∈ catClosure db.transaction_categories [cid] :=
      descendant_mem_catClosure db.transaction_categories [cid] cid
        (List.mem_singleton.2 rfl) g c.id hg
    rw [Bool.not_eq_true', ← Bool.not_eq_true] at hpred
    exact hpred (by simpa [List.contains] using List.elem_iff.2 hin)
  · intro b hb hbeq
    simp only [deleteCategory] at hb
    have hpred := (List.mem_filter.1 hb).2
    rw [Bool.not_eq_true', ← Bool.not_eq_true] at hpred
    exact hpred (by simpa [List.contains, hbeq] using List.elem_iff.2 hcidin)
  · intro t ht
    refine ⟨clearCategoryRef (catClosure db.transaction_categories [cid]) t, ?_,
      clearCategoryRef_id _ t, clearCategoryRef_account_id _ t, clearCategoryRef_amount _ t,
      clearCategoryRef_transaction_type _ t, ?_⟩
    · simp only [deleteCategory]
      exact List.mem_map_of_mem _ ht
    · intro hcat
      have hcw : (catClosure db.transaction_categories [cid]).contains cid = true := by
        simpa [List.contains] using List.elem_iff.2 hcidin
      simp [clearCategoryRef, hcat, hcw, hcidin]
  · intro u hu
    simp only [deleteCategory] at hu
    obtain ⟨t, ht, rfl⟩ := List.mem_map.1 hu
    exact ⟨t, ht, clearCategoryRef_id _ t⟩

/-- C5 witness: deleting the sample root category also deletes the
grandchild subcategory (two levels down), and the sample transaction
survives with its category reference cleared. -/
theorem deleteCategory_cascades_witness :
    (catWgrand ∉ (deleteCategory dbW 1).transaction_categories) ∧
    (∃ u ∈ (deleteCategory dbW 1).transactions,
      u.id = txW.id ∧ u.account_id = txW.account_id ∧ u.amount = txW.amount ∧
      u.transaction_type = txW.transaction_type ∧
      (txW.category_id = some 1 → u.category_id = none)) :=
  ⟨(deleteCategory_cascades dbW 1).2.2.2.1 catWgrand (by decide) ⟨2, by decide⟩,
   (deleteCategory_cascades dbW 1).2.2.2.2.2.1 txW (by decide)⟩

/-! ## C1, C2: transfer pairs — atomic creation, non-atomic deletion -/

/-- C1 (counterexample): the claim fails on the code.  In the concrete
state `dbPair` — produced by `appendTransfer` from the clean two-account
state and satisfying the pairing invariant — deleting the debit leg
(id 1) yields an observable state in which the surviving credit leg is a
transfer transaction with no link partner: the pair is not deleted
atomically; the schema declares `ondelete="SET NULL"` instead. -/
theorem transfer_delete_leaves_lone_leg :
    appendTransfer dbC1 1 2 5000 0 ("rent") = Except.ok (dbPair, txDebit, txCredit) ∧
    TransferInv dbPair.transactions ∧
    (∃ u ∈ (deleteTransaction dbPair 1).transactions,
        u.transaction_type = TransactionType.transfer ∧ u.linked_transaction_id = none) ∧
    ¬ TransferInv (deleteTransaction dbPair 1).transactions :=
  ⟨rfl, by decide, by decide, by decide⟩

/-- C1 (amended theorem): every transfer pair produced by `appendTransfer`
is created atomically and mutually linked — each leg is a transfer, on a
different account than the other, with equal and opposite amount, linking
back at the other — and the invariant holds for the whole journal after
the append; however, deleting one leg does not delete the counterpart:
the counterpart survives with its link field cleared. -/
theorem appendTransfer_creates_atomic_pair (db db' : DB) (src dst : Nat) (amt : Int)
    (dt : Nat) (descr : String) (t1 t2 : Transaction)
    (hinv : TransferInv db.transactions)
    (h : appendTransfer db src dst amt dt descr = Except.ok (db', t1, t2)) :
    TransferInv db'.transactions ∧
    t1.transaction_type = TransactionType.transfer ∧
    t2.transaction_type = TransactionType.transfer ∧
    t1.linked_transaction_id = some t2.id ∧
    t2.linked_transaction_id = some t1.id ∧
    t1.account_id ≠ t2.account_id ∧
    t2.amount = -t1.amount ∧
    t1 ∈ db'.transactions ∧ t2 ∈ db'.transactions ∧
    (∃ u ∈ (deleteTransaction db' t1.id).transactions,
        u.id = t2.id ∧ u.linked_transaction_id = none) := by
  unfold appendTransfer at h
  split at h
  next => exact absurd h (by simp)
  next hsd =>
  split at h
  next => exact absurd h (by simp)
  next hamt =>
  split at h
  next a b =>
    split at h
    next hact =>
      simp only [Except.ok.injEq, Prod.mk.injEq] at h
      obtain ⟨hdb, ht1, ht2⟩ := h
      subst hdb
      subst ht1
      subst ht2
      have hds : dst ≠ src := fun hh => hsd hh.symm
      refine ⟨?_, rfl, rfl, rfl, rfl, hsd, (neg_neg amt).symm,
        List.mem_cons_self _ _, List.mem_cons_of_mem _ (List.mem_cons_self _ _), ?_⟩
      · intro t htmem httype
        rcases List.mem_cons.1 htmem with rfl | htmem2
        · show hasPartner _ _ = true
          simp only [hasPartner, List.any_eq_true]
          refine ⟨⟨nextTxId db.transactions + 1, dst, none, amt, .transfer, descr, dt,
            none, some (nextTxId db.transactions)⟩,
            List.mem_cons_of_mem _ (List.mem_cons_self _ _), ?_⟩
          simp [hds]
        · rcases List.mem_cons.1 htmem2 with rfl | htold
          · show hasPartner _ _ = true
            simp only [hasPartner, List.any_eq_true]
            refine ⟨⟨nextTxId db.transactions, src, none, -amt, .transfer, descr, dt,
              none, some (nextTxId db.transactions + 1)⟩,
              List.mem_cons_self _ _, ?_⟩
            simp [hsd]
          · exact hasPartner_cons _ _ _ (hasPartner_cons _ _ _ (hinv t htold httype))
      · refine ⟨clearLink (nextTxId db.transactions)
          ⟨nextTxId db.transactions + 1, dst, none, amt, .transfer, descr, dt,
            none, some (nextTxId db.transactions)⟩, ?_, clearLink_id _ _, ?_⟩
        · show _ ∈ (deleteTransaction _ _).transactions
          unfold deleteTransaction
          apply List.mem_map_of_mem
          refine List.mem_filter.2
            ⟨List.mem_cons_of_mem _ (List.mem_cons_self _ _), by simp⟩
        · simp [clearLink]
    next => exact absurd h (by simp)
  all_goals exact absurd h (by simp)

/-- C1 witness: applying the amended theorem to the clean §8 scenario
state. -/
theorem appendTransfer_creates_atomic_pair_witness :
    TransferInv dbPair.transactions ∧
    txDebit.transaction_type = TransactionType.transfer ∧
    txCredit.transaction_type = TransactionType.transfer ∧
    txDebit.linked_transaction_id = some txCredit.id ∧
    txCredit.linked_transaction_id = some txDebit.id ∧
    txDebit.account_id ≠ txCredit.account_id ∧
    txCredit.amount = -txDebit.amount ∧
    txDebit ∈ dbPair.transactions ∧ txCredit ∈ dbPair.transactions ∧
    (∃ u ∈ (deleteTransaction dbPair txDebit.id).transactions,
        u.id = txCredit.id ∧ u.linked_transaction_id = none) :=
  appendTransfer_creates_atomic_pair dbC1 dbPair 1 2 5000 0 ("rent") txDebit txCredit
    (by decide) rfl

/-- C2 (counterexample): the claim fails on the code.  In the concrete
post-transfer state `dbPair` (balances -50.00 / +50.00), deleting the
debit leg does not remove the counterpart leg — it survives — and the
stored balances are not restored: account 1 still holds -50.00, not
0.00. -/
theorem transfer_leg_delete_keeps_counterpart_and_balances :
    appendTransfer dbC1 1 2 5000 0 ("rent") = Except.ok (dbPair, txDebit, txCredit) ∧
    (∃ u ∈ (deleteTransaction dbPair 1).transactions, u.id = 2) ∧
    (∃ a ∈ (deleteTransaction dbPair 1).accounts, a.id = 1 ∧ a.balance = -5000 ∧
        a.balance ≠ 0) :=
  ⟨rfl, by decide, by decide⟩

/-- C2 (amended theorem): deleting one leg of a linked transfer pair
leaves the stored account balances entirely unchanged and leaves the
counterpart leg in place — same id and amount — with its link field
cleared, per the `ondelete="SET NULL"` declaration. -/
theorem deleteTransaction_keeps_counterpart_and_balances (db : DB) (tid : Nat) :
    (deleteTransaction db tid).accounts = db.accounts ∧
    (∀ t ∈ db.transactions, t.id ≠ tid → t.linked_transaction_id = some tid →
      ∃ u ∈ (deleteTransaction db tid).transactions,
        u.id = t.id ∧ u.amount = t.amount ∧ u.linked_transaction_id = none) := by
  constructor
  · rfl
  · intro t ht hne hlink
    refine ⟨clearLink tid t, ?_, clearLink_id tid t, clearLink_amount tid t, ?_⟩
    · show clearLink tid t ∈ (deleteTransaction db tid).transactions
      unfold deleteTransaction
      apply List.mem_map_of_mem
      exact List.mem_filter.2 ⟨ht, by simp [hne]⟩
    · simp [clearLink, hlink]

/-- C2 witness: the amended theorem applied at the post-transfer sample
state and its credit leg. -/
theorem deleteTransaction_keeps_counterpart_and_balances_witness :
    ∃ u ∈ (deleteTransaction dbPair 1).transactions,
      u.id = txCredit.id ∧ u.amount = txCredit.amount ∧ u.linked_transaction_id = none :=
  (deleteTransaction_keeps_counterpart_and_balances dbPair 1).2 txCredit
    (by decide) (by decide) (by decide)

/-! ## C6: Category Tree writes preserve scope agreement and acyclicity -/

/-- C6 (confirmed): every successful write to the category arena — a
`createCategory` or a `reparentCategory` — preserves the invariant that
each parent reference resolves within the same owner scope and that every
parent chain is finite (reaches a root), and in particular no category
appears among its own ancestors.  The write operations are modelled from
the specification (§4.2); the re-validation is the ancestor walk the
specification prescribes. -/
theorem category_writes_preserve_invariant (cats cats' : List TransactionCategory)
    (hinv : CatInv cats) :
    (∀ owner nm ctype parent,
        createCategory cats owner nm ctype parent = Except.ok cats' →
        CatInv cats' ∧ NoSelfAncestor cats') ∧
    (∀ cid newParent,
        reparentCategory cats cid newParent = Except.ok cats' →
        CatInv cats' ∧ NoSelfAncestor cats') := by
  obtain ⟨hnodup, hscope, hfin⟩ := hinv
  constructor
  · intro owner nm ctype parent h
    simp only [createCategory] at h
    have hb : ∀ y ∈ cats, y.id < nextCatId cats := fun y hy => id_lt_nextCatId cats y hy
    have hn : ((⟨nextCatId cats, owner, nm, ctype, none, none, owner.isNone,
        parent⟩ : TransactionCategory) :: cats).map (fun c => c.id) |>.Nodup := by
      simp only [List.map_cons]
      refine List.nodup_cons.2 ⟨?_, hnodup⟩
      intro hmem
      obtain ⟨y, hy, hyid⟩ := List.mem_map.1 hmem
      have := id_lt_nextCatId cats y hy
      omega
    split at h
    · simp only [Except.ok.injEq] at h
      subst h
      have hsc : ScopeOk ((⟨nextCatId cats, owner, nm, ctype, none, none, owner.isNone,
          none⟩ : TransactionCategory) :: cats) :=
        scopeOk_cons cats _ hscope hb (fun p hp => by simp at hp)
      have hfc : ChainsFinite ((⟨nextCatId cats, owner, nm, ctype, none, none, owner.isNone,
          none⟩ : TransactionCategory) :: cats) :=
        chainsFinite_cons cats _ hscope hb hfin (fun p hp => by simp at hp)
      exact ⟨⟨hn, hsc, hfc⟩, noSelfAncestor_of_chainsFinite _ hfc⟩
    next p =>
      split at h
      · simp at h
      next pc heqp =>
        split at h
        next huser =>
          simp only [Except.ok.injEq] at h
          subst h
          have hsc : ScopeOk ((⟨nextCatId cats, owner, nm, ctype, none, none, owner.isNone,
              some p⟩ : TransactionCategory) :: cats) := by
            refine scopeOk_cons cats _ hscope hb ?_
            intro r hr
            obtain rfl : p = r := Option.some.inj hr
            exact ⟨pc, heqp, huser⟩
          have hfc : ChainsFinite ((⟨nextCatId cats, owner, nm, ctype, none, none,
              owner.isNone, some p⟩ : TransactionCategory) :: cats) := by
            refine chainsFinite_cons cats _ hscope hb hfin ?_
            intro r hr
            obtain rfl : p = r := Option.some.inj hr
            exact ⟨pc, heqp⟩
          exact ⟨⟨hn, hsc, hfc⟩, noSelfAncestor_of_chainsFinite _ hfc⟩
        next => simp at h
  · intro cid newParent h
    simp only [reparentCategory] at h
    split at h
    · simp at h
    next c heqc =>
      split at h
      · simp only [Except.ok.injEq] at h
        subst h
        have hcid1 : chainEndsAtRoot 1 (setParent cats cid none) cid = true := by
          simp only [chainEndsAtRoot]
          rw [stepPar_setParent_self cats cid none c heqc]
        have hf2 : ChainsFinite (setParent cats cid none) :=
          chainsFinite_setParent_of_cid cats cid none 1 hcid1 hfin
        refine ⟨⟨?_, scopeOk_setParent_none cats cid hscope, hf2⟩,
          noSelfAncestor_of_chainsFinite _ hf2⟩
        rw [setParent_map_id]
        exact hnodup
      next p =>
        split at h
        · simp at h
        next pc heqp =>
          split at h
          · simp at h
          next husern =>
            split at h
            · simp at h
            next hcont =>
              split at h
              next hch =>
                simp only [Except.ok.injEq] at h
                subst h
                have huser : pc.user_id = c.user_id := not_not.1 husern
                have hnm : cid ∉ ancChainIncl (cats.length + 1) cats p := by
                  intro hmem
                  exact hcont (by simpa [List.contains] using List.elem_iff.2 hmem)
                have hchp := chainEndsAtRoot_setParent_of_avoid cats cid (some p)
                  (cats.length + 1) p hnm hch
                have hcid2 : chainEndsAtRoot (cats.length + 1 + 1)
                    (setParent cats cid (some p)) cid = true := by
                  simp only [chainEndsAtRoot]
                  rw [stepPar_setParent_self cats cid (some p) c heqc]
                  exact hchp
                have hf2 : ChainsFinite (setParent cats cid (some p)) :=
                  chainsFinite_setParent_of_cid cats cid (some p) _ hcid2 hfin
                refine ⟨⟨?_, scopeOk_setParent cats cid p hnodup hscope c heqc pc heqp huser,
                  hf2⟩, noSelfAncestor_of_chainsFinite _ hf2⟩
                rw [setParent_map_id]
                exact hnodup
              next => simp at h

/-- C6 witness: creating a first system category in the empty arena
yields a state satisfying the invariant. -/
theorem category_writes_preserve_invariant_witness :
    CatInv [(⟨1, none, "Groceries", CategoryType.expense, none, none, true,
        none⟩ : TransactionCategory)] ∧
    NoSelfAncestor [(⟨1, none, "Groceries", CategoryType.expense, none, none, true,
        none⟩ : TransactionCategory)] :=
  (category_writes_preserve_invariant []
      [⟨1, none, "Groceries", CategoryType.expense, none, none, true, none⟩]
      ⟨by simp, by simp [ScopeOk], by simp [ChainsFinite]⟩).1
    none ("Groceries") CategoryType.expense none rfl

/-! ## C7: Budget windows never overlap -/

theorem windowsOverlap_comm (b1 b2 : Budget) : windowsOverlap b1 b2 = windowsOverlap b2 b1 := by
  unfold windowsOverlap
  exact Bool.and_comm _ _

theorem le_foldr_max_budget (bs : List Budget) (b : Budget) (hb : b ∈ bs) :
    b.id ≤ bs.foldr (fun b m => max b.id m) 0 := by
  induction bs with
  | nil => cases hb
  | cons x xs ih =>
    rcases List.mem_cons.1 hb with rfl | hx
    · exact le_max_left _ _
    · exact le_trans (ih hx) (le_max_right _ _)

theorem id_lt_nextBudgetId (bs : List Budget) (b : Budget) (hb : b ∈ bs) :
    b.id < nextBudgetId bs := by
  unfold nextBudgetId
  have := le_foldr_max_budget bs b hb
  omega

/-- C7 (confirmed): successful creation or window edit of a budget — both
modelled from the specification, which prescribes re-validation of I5
against all other budgets sharing (user, category) — preserves the
invariant that windows of distinct budgets with the same user and category
never overlap; and a creation that would overlap an existing budget of the
same user and category is rejected with `BudgetOverlap`. -/
theorem budget_writes_preserve_no_overlap (bs bs' : List Budget)
    (hnodup : (bs.map (fun b => b.id)).Nodup) (hinv : BudgetInv bs) :
    (∀ uid cid amt per sd ed,
        createBudget bs uid cid amt per sd ed = Except.ok bs' →
        BudgetInv bs' ∧ (bs'.map (fun b => b.id)).Nodup) ∧
    (∀ uid cid amt per sd ed b, b ∈ bs → b.user_id = uid → b.category_id = cid →
        windowsOverlap b ⟨nextBudgetId bs, uid, cid, amt, per, sd, ed⟩ = true →
        createBudget bs uid cid amt per sd ed = Except.error CoreError.BudgetOverlap) ∧
    (∀ bid sd ed,
        editBudget bs bid sd ed = Except.ok bs' →
        BudgetInv bs' ∧ (bs'.map (fun b => b.id)).Nodup) := by
  refine ⟨?_, ?_, ?_⟩
  · intro uid cid amt per sd ed h
    simp only [createBudget] at h
    split at h
    · simp at h
    next hany =>
      simp only [Except.ok.injEq] at h
      subst h
      have hanyf : ∀ b ∈ bs,
          ¬(decide (b.user_id = uid) && decide (b.category_id = cid) &&
            windowsOverlap b ⟨nextBudgetId bs, uid, cid, amt, per, sd, ed⟩) = true :=
        fun b hb hbad => hany (List.any_eq_true.2 ⟨b, hb, hbad⟩)
      constructor
      · intro b1 h1 b2 h2 hne hu hc
        rcases List.mem_cons.1 h1 with rfl | h1o
        · rcases List.mem_cons.1 h2 with rfl | h2o
          · exact absurd rfl hne
          · rw [windowsOverlap_comm]
            by_contra hov
            rw [Bool.not_eq_false] at hov
            apply hanyf b2 h2o
            have hu2 : b2.user_id = uid := hu.symm
            have hc2 : b2.category_id = cid := hc.symm
            simp [hu2, hc2, hov]
        · rcases List.mem_cons.1 h2 with rfl | h2o
          · by_contra hov
            rw [Bool.not_eq_false] at hov
            apply hanyf b1 h1o
            have hu2 : b1.user_id = uid := hu
            have hc2 : b1.category_id = cid := hc
            simp [hu2, hc2, hov]
          · exact hinv b1 h1o b2 h2o hne hu hc
      · simp only [List.map_cons]
        refine List.nodup_cons.2 ⟨?_, hnodup⟩
        intro hmem
        obtain ⟨y, hy, hyid⟩ := List.mem_map.1 hmem
        have := id_lt_nextBudgetId bs y hy
        omega
  · intro uid cid amt per sd ed b hb hu hc hov
    simp only [createBudget]
    rw [if_pos]
    exact List.any_eq_true.2 ⟨b, hb, by simp [hu, hc, hov]⟩
  · intro bid sd ed h
    simp only [editBudget] at h
    split at h
    · simp at h
    next b0 heq0 =>
      split at h
      · simp at h
      next hany =>
        simp only [Except.ok.injEq] at h
        subst h
        have hb0mem : b0 ∈ bs := List.mem_of_find?_eq_some heq0
        have hb0id : b0.id = bid := by simpa using List.find?_some heq0
        have hanyf : ∀ b ∈ bs,
            ¬(decide (b.id ≠ bid) && decide (b.user_id = b0.user_id) &&
              decide (b.category_id = b0.category_id) &&
              windowsOverlap b { b0 with start_date := sd, end_date := ed }) = true :=
          fun b hb hbad => hany (List.any_eq_true.2 ⟨b, hb, hbad⟩)
        constructor
        · intro b1' h1 b2' h2 hne hu hc
          obtain ⟨b1, hb1, rfl⟩ := List.mem_map.1 h1
          obtain ⟨b2, hb2, rfl⟩ := List.mem_map.1 h2
          by_cases h1c : b1.id = bid <;> by_cases h2c : b2.id = bid
          · exfalso
            apply hne
            rw [if_pos h1c, if_pos h2c]
            show b1.id = b2.id
            rw [h1c, h2c]
          · have hb1b0 : b1 = b0 :=
              List.inj_on_of_nodup_map hnodup hb1 hb0mem (by rw [h1c, hb0id])
            rw [if_pos h1c, if_neg h2c] at hu hc ⊢
            subst hb1b0
            by_contra hov
            rw [Bool.not_eq_false] at hov
            apply hanyf b2 hb2
            have hu2 : b2.user_id = b1.user_id := hu.symm
            have hc2 : b2.category_id = b1.category_id := hc.symm
            rw [windowsOverlap_comm] at hov
            simp [h2c, hu2, hc2, hov]
          · have hb2b0 : b2 = b0 :=
              List.inj_on_of_nodup_map hnodup hb2 hb0mem (by rw [h2c, hb0id])
            rw [if_neg h1c, if_pos h2c] at hu hc ⊢
            subst hb2b0
            by_contra hov
            rw [Bool.not_eq_false] at hov
            apply hanyf b1 hb1
            have hu2 : b1.user_id = b2.user_id := hu
            have hc2 : b1.category_id = b2.category_id := hc
            simp [h1c, hu2, hc2, hov]
          · rw [if_neg h1c, if_neg h2c] at hne hu hc ⊢
            exact hinv b1 hb1 b2 hb2 hne hu hc
        · rw [List.map_map]
          have hcomp : ((fun b => b.id) ∘ fun b : Budget =>
              if b.id = bid then { b with start_date := sd, end_date := ed } else b) =
              fun b : Budget => b.id := by
            funext b
            by_cases hb : b.id = bid <;> simp [Function.comp, hb]
          rw [hcomp]
          exact hnodup

/-- C7 witness: creating a first budget in the empty store yields a
non-overlapping state. -/
theorem budget_writes_preserve_no_overlap_witness :
    BudgetInv [(⟨1, 1, 1, 40000, BudgetPeriod.monthly, 0, none⟩ : Budget)] ∧
    ((([(⟨1, 1, 1, 40000, BudgetPeriod.monthly, 0, none⟩ : Budget)]).map
      (fun b => b.id)).Nodup) :=
  (budget_writes_preserve_no_overlap [] [⟨1, 1, 1, 40000, BudgetPeriod.monthly, 0, none⟩]
      (by simp) (by simp [BudgetInv])).1 1 1 40000 BudgetPeriod.monthly 0 none rfl

/-! ## C8: Identity Store email uniqueness -/

/-- C8 (confirmed): the Identity Store create — modelled from the
specification contract, with the uniqueness of `email` declared in the
schema — returns a new user carrying the given email, credential hash and
name when no existing user has the same email up to case, and fails with
`DuplicateEmail` when some existing user has the same email up to case. -/
theorem createUser_email_uniqueness (db : DB) (e pw nm : String) :
    ((∃ u ∈ db.users, lowerEmail u.email = lowerEmail e) →
      createUser db e pw nm = Except.error CoreError.DuplicateEmail) ∧
    ((∀ u ∈ db.users, lowerEmail u.email ≠ lowerEmail e) →
      ∃ db' nu, createUser db e pw nm = Except.ok (db', nu) ∧
        nu.email = e ∧ nu.hashed_password = pw ∧ nu.full_name = nm ∧
        db'.users = nu :: db.users) := by
  constructor
  · intro hdup
    obtain ⟨u, hu, hlow⟩ := hdup
    unfold createUser
    rw [if_pos]
    exact List.any_eq_true.2 ⟨u, hu, by simp [hlow]⟩
  · intro hall
    unfold createUser
    rw [if_neg]
    · exact ⟨_, _, rfl, rfl, rfl, rfl, rfl⟩
    · intro hany
      obtain ⟨u, hu, hdec⟩ := List.any_eq_true.1 hany
      exact hall u hu (by simpa using hdec)

/-- C8 witness: registering a case-variant of an existing email is
rejected with `DuplicateEmail`. -/
theorem createUser_email_uniqueness_witness :
    createUser dbW ("ALICE@Example.Com") ("h9") ("A2") =
      Except.error CoreError.DuplicateEmail :=
  (createUser_email_uniqueness dbW ("ALICE@Example.Com") ("h9") ("A2")).1
    ⟨userW, by decide, by decide⟩

/-! ## C9: monetary representation -/

/-- C9 (confirmed): each of the three monetary columns of the schema —
`accounts.balance`, `transactions.amount`, `budgets.amount` — is declared
`Numeric(precision = 15, scale = 2)`, an exact fixed-point decimal with 2
decimal places, and no column of any table of the schema is a
floating-point column. -/
theorem money_columns_exact_decimal :
    (∀ pq ∈ moneyColumns, lookupColType pq.1 pq.2 = some (ColType.numericCol 15 2)) ∧
    (∀ t ∈ schemaTables, ∀ col ∈ tableColumns t, col.ty ≠ ColType.floatCol) := by
  constructor
  · decide
  · decide

/-- C9 witness: the account balance column is `Numeric(15, 2)`. -/
theorem money_columns_exact_decimal_witness :
    lookupColType ("accounts") ("balance") = some (ColType.numericCol 15 2) :=
  money_columns_exact_decimal.1 (("accounts"), ("balance")) (by decide)

/-! ## C10: account creation defaults -/

/-- C10 (confirmed): a newly created account has balance exactly 0.00 (0
minor units), is created active, and when no currency is supplied its
currency defaults to "USD" — the column defaults declared in
`account.py`; a supplied currency is stored as given. -/
theorem createAccount_defaults (db : DB) (owner : Nat) (nm : String) (atype : AccountType) :
    (∀ cur, (createAccount db owner nm atype cur).2.balance = 0 ∧
        (createAccount db owner nm atype cur).2.is_active = true) ∧
    (createAccount db owner nm atype none).2.currency = "USD" ∧
    (∀ c, (createAccount db owner nm atype (some c)).2.currency = c) :=
  ⟨fun cur => ⟨rfl, rfl⟩, rfl, fun c => rfl⟩

end BudgetApp
